import Mathlib

/-!
# Verification of the feed normalization and constrained wrapping engine

Shallow embedding of the title-normalization and text-wrapping logic of the
now-playing SVG widget.  Strings are modelled as `List Char` (JavaScript
strings are sequences of UTF-16 units; every character appearing in this
development is a single unit, so list positions coincide with JS indices).
The embedded functions mirror `smartWrapValue`, `wrapByWords`,
`ellipsizeToFit`, `approxCharsThatFit`, the Goodreads / Letterboxd / Last.fm
normalizers and the SVG height computation of the most complete source
variant.
-/

abbrev Str := List Char

/-- Shorthand turning a Lean string literal into the `List Char` model. -/
def str (s : String) : Str := s.data

/-- The whitespace test backing JavaScript `trim` for the inputs at hand. -/
def isWS (c : Char) : Bool := c = ' ' || c = '\t' || c = '\n' || c = '\r'

/-- JS `String.prototype.trimStart`. -/
def trimLeft (s : Str) : Str := s.dropWhile isWS

/-- JS `String.prototype.trimEnd`. -/
def trimRight (s : Str) : Str := (s.reverse.dropWhile isWS).reverse

/-- JS `String.prototype.trim`. -/
def trim (s : Str) : Str := trimRight (trimLeft s)

/-- JS `a || b` on strings: `b` when `a` is the empty string, else `a`. -/
def jsOrEmpty (a b : Str) : Str := if a = [] then b else a

/-- The em-dash placeholder glyph `"—"`. -/
def emDash : Str := ['—']

/-- The protected separator `" — "` between a title and its author/artist. -/
def sep : Str := [' ', '—', ' ']

-- quick sanity checks of the model (concrete evaluation)
example : str "ab" = ['a', 'b'] := by decide
example : trim (str "  a b  ") = str "a b" := by decide
example : jsOrEmpty [] emDash = emDash := by decide

/-! ## Facts about `trim` and pattern search -/

theorem dropWhile_head_not {p : Char → Bool} {l : Str} {c : Char} {t : Str}
    (h : l.dropWhile p = c :: t) : p c = false := by
  induction l with
  | nil => simp at h
  | cons a l ih =>
    rw [List.dropWhile_cons] at h
    by_cases hp : p a
    · simp [hp] at h; exact ih h
    · simp [hp] at h; obtain ⟨rfl, -⟩ := h; simpa using hp

theorem dropWhile_self (p : Char → Bool) (l : Str) :
    (l.dropWhile p).dropWhile p = l.dropWhile p := by
  cases h : l.dropWhile p with
  | nil => simp
  | cons c t =>
    have hc := dropWhile_head_not h
    rw [List.dropWhile_cons, hc]
    simp

theorem trimLeft_suffix (s : Str) : trimLeft s <:+ s :=
  ⟨s.takeWhile isWS, s.takeWhile_append_dropWhile isWS⟩

theorem trimRight_isPre (s : Str) : trimRight s <+: s := by
  have h : (trimRight s).reverse <:+ s.reverse := by
    unfold trimRight
    rw [List.reverse_reverse]
    exact ⟨s.reverse.takeWhile isWS, s.reverse.takeWhile_append_dropWhile isWS⟩
  exact List.reverse_suffix.mp h

theorem trim_length_le (s : Str) : (trim s).length ≤ s.length :=
  le_trans ((trimRight_isPre (trimLeft s)).length_le) ((trimLeft_suffix s).length_le)

theorem trimRight_reverse_eq (s : Str) :
    (trimRight s).reverse = s.reverse.dropWhile isWS := by
  unfold trimRight; rw [List.reverse_reverse]

theorem trimRight_eq_nil_iff {s : Str} : trimRight s = [] ↔ ∀ c ∈ s, isWS c := by
  unfold trimRight
  rw [List.reverse_eq_nil_iff, List.dropWhile_eq_nil_iff]
  constructor
  · intro h c hc; exact h c (List.mem_reverse.mpr hc)
  · intro h c hc; exact h c (List.mem_reverse.mp hc)

theorem trimLeft_eq_nil_iff {s : Str} : trimLeft s = [] ↔ ∀ c ∈ s, isWS c := by
  unfold trimLeft
  exact List.dropWhile_eq_nil_iff

theorem trim_eq_nil_iff {s : Str} : trim s = [] ↔ ∀ c ∈ s, isWS c := by
  unfold trim
  rw [trimRight_eq_nil_iff]
  constructor
  · intro h c hc
    have hsplit : c ∈ s.takeWhile isWS ∨ c ∈ s.dropWhile isWS := by
      have heq := List.takeWhile_append_dropWhile (p := isWS) (l := s)
      rw [← heq] at hc
      exact List.mem_append.mp hc
    rcases hsplit with h1 | h2
    · exact List.mem_takeWhile_imp h1
    · exact h c h2
  · intro h c hc
    exact h c ((trimLeft_suffix s).subset hc)

theorem trim_ne_nil_of_mem {s : Str} {c : Char} (hc : c ∈ s) (hw : isWS c = false) :
    trim s ≠ [] := by
  intro h
  rw [trim_eq_nil_iff] at h
  rw [h c hc] at hw
  exact absurd hw (by simp)

theorem trim_head_not_ws {s : Str} {c : Char} {t : Str} (h : trim s = c :: t) :
    isWS c = false := by
  have hpre : trim s <+: trimLeft s := trimRight_isPre (trimLeft s)
  rw [h] at hpre
  obtain ⟨r, hr⟩ := hpre
  cases hl : trimLeft s with
  | nil => rw [hl] at hr; simp at hr
  | cons d u =>
    rw [hl] at hr
    have : c = d := by
      have := hr
      injection this.symm with h1 _
      exact h1.symm
    subst this
    exact dropWhile_head_not hl

theorem trimLeft_of_trim_eq {s : Str} (h : trim s = s) : trimLeft s = s := by
  cases s with
  | nil => simp [trimLeft]
  | cons c t =>
    have hcw : isWS c = false := trim_head_not_ws h
    unfold trimLeft
    rw [List.dropWhile_cons, hcw]
    simp

theorem trim_reverse_head_not_ws {s : Str} {c : Char} {t : Str}
    (hrev : (trim s).reverse = c :: t) : isWS c = false := by
  have : (trim s).reverse = (trimLeft s).reverse.dropWhile isWS := by
    unfold trim
    exact trimRight_reverse_eq (trimLeft s)
  rw [this] at hrev
  exact dropWhile_head_not hrev

theorem trimRight_of_trim_eq {s : Str} (h : trim s = s) : trimRight s = s := by
  cases hrev : s.reverse with
  | nil =>
    have : s = [] := by simpa using congrArg List.reverse hrev
    simp [this, trimRight]
  | cons c t =>
    have hcw : isWS c = false := trim_reverse_head_not_ws (by rw [h, hrev])
    unfold trimRight
    rw [hrev, List.dropWhile_cons, hcw]
    simp [← hrev]

theorem trimLeft_append_of (x : Str) {s : Str} (h : trim s = s) (hne : s ≠ []) :
    trimLeft (s ++ x) = s ++ x := by
  cases s with
  | nil => exact absurd rfl hne
  | cons c t =>
    have hcw : isWS c = false := trim_head_not_ws h
    unfold trimLeft
    rw [List.cons_append, List.dropWhile_cons, hcw]
    simp

theorem trimRight_append_of (x : Str) {s : Str} (h : trim s = s) (hne : s ≠ []) :
    trimRight (x ++ s) = x ++ s := by
  cases hrev : s.reverse with
  | nil =>
    have : s = [] := by simpa using congrArg List.reverse hrev
    exact absurd this hne
  | cons d u =>
    have hdw : isWS d = false := trim_reverse_head_not_ws (by rw [h, hrev])
    unfold trimRight
    rw [List.reverse_append, hrev, List.cons_append, List.dropWhile_cons, hdw]
    have hs2 : s = u.reverse ++ [d] := by
      have h2 := congrArg List.reverse hrev
      simpa using h2
    simp [hs2]

theorem trim_sandwich {p s : Str} (mid : Str) (hp : trim p = p) (hpne : p ≠ [])
    (hs : trim s = s) (hsne : s ≠ []) :
    trim (p ++ mid ++ s) = p ++ mid ++ s := by
  unfold trim
  have h1 : trimLeft (p ++ (mid ++ s)) = p ++ (mid ++ s) :=
    trimLeft_append_of (mid ++ s) hp hpne
  rw [List.append_assoc, h1, ← List.append_assoc]
  exact trimRight_append_of (p ++ mid) hs hsne

theorem trim_append_right {p s : Str} (hp : trim p = p) (hpne : p ≠ [])
    (hs : trim s = s) (hsne : s ≠ []) : trim (p ++ s) = p ++ s := by
  have := trim_sandwich (p := p) (s := s) [] hp hpne hs hsne
  simpa using this

theorem trim_trim (s : Str) : trim (trim s) = trim s := by
  cases h : trim s with
  | nil => simp [trim, trimLeft, trimRight]
  | cons c t =>
    have hcw : isWS c = false := trim_head_not_ws h
    have h1 : trimLeft (c :: t) = c :: t := by
      unfold trimLeft; rw [List.dropWhile_cons, hcw]; simp
    show trimRight (trimLeft (c :: t)) = c :: t
    rw [h1]
    cases hrev : (c :: t).reverse with
    | nil => simp at hrev
    | cons d u =>
      have hdw : isWS d = false := trim_reverse_head_not_ws (by rw [h, hrev])
      unfold trimRight
      rw [hrev, List.dropWhile_cons, hdw]
      simp [← hrev]

/-! ## Pattern search and sequential split (JS `String.prototype.split`) -/

/-- Does the separator `" — "` occur at the head of the list? -/
def sepAt : Str → Bool
  | a :: b :: c :: _ => a = ' ' && b = '—' && c = ' '
  | _ => false

/-- Does the rating delimiter `" - "` occur at the head of the list? -/
def dashAt : Str → Bool
  | a :: b :: c :: _ => a = ' ' && b = '-' && c = ' '
  | _ => false

/-- Does the case-insensitive delimiter `" by "` (regex `/ by /i`) occur at
the head of the list? -/
def byAt : Str → Bool
  | a :: b :: c :: d :: _ =>
    a = ' ' && (b = 'b' || b = 'B') && (c = 'y' || c = 'Y') && d = ' '
  | _ => false

/-- Index of the first suffix at which the head-pattern `p` matches
(JS `indexOf` / first regex match). -/
def findIdxBy (p : Str → Bool) : Str → Option Nat
  | [] => none
  | c :: t => if p (c :: t) then some 0 else (findIdxBy p t).map (· + 1)

/-- Sequential left-to-right non-overlapping split on a pattern of width `w`,
with explicit fuel (JS `split` consumes each match and continues after it). -/
def splitPatAux (p : Str → Bool) (w : Nat) : Nat → Str → List Str
  | 0, s => [s]
  | fuel + 1, s =>
    match findIdxBy p s with
    | none => [s]
    | some i => s.take i :: splitPatAux p w fuel (s.drop (i + w))

/-- JS `v.split(" — ")`. -/
def splitSep (s : Str) : List Str := splitPatAux sepAt 3 s.length s

/-- JS `rawTitle.split(/ by /i)`. -/
def splitBy (s : Str) : List Str := splitPatAux byAt 4 s.length s

/-- The lowercase literal `" by "` used by `join(" by ")`. -/
def byLit : Str := [' ', 'b', 'y', ' ']

theorem sepAt_sep_append (s : Str) : sepAt (sep ++ s) = true := by
  simp [sep, sepAt]

theorem sepAt_dash_mem {l : Str} (h : sepAt l = true) : '—' ∈ l := by
  match l, h with
  | a :: b :: c :: r, h =>
    simp only [sepAt, Bool.and_eq_true, decide_eq_true_eq] at h
    obtain ⟨⟨-, hb⟩, -⟩ := h
    simp [hb]

theorem findIdxBy_sepAt_none {s : Str} (h : '—' ∉ s) : findIdxBy sepAt s = none := by
  induction s with
  | nil => rfl
  | cons c t ih =>
    rw [findIdxBy]
    have hfalse : sepAt (c :: t) = false := by
      cases hb : sepAt (c :: t)
      · rfl
      · exact absurd (sepAt_dash_mem hb) h
    rw [hfalse]
    simp only [Bool.false_eq_true, if_false]
    rw [ih (fun hm => h (List.mem_cons_of_mem c hm))]
    rfl


theorem sepAt_false_of_second {c : Char} {l : Str} (h : l.head? ≠ some '—') :
    sepAt (c :: l) = false := by
  match l with
  | [] => rfl
  | [b] => rfl
  | b :: e :: u =>
    have hb : b ≠ '—' := by simpa using h
    simp [sepAt, hb]

theorem findIdxBy_sepAt_append {p : Str} (s : Str) (hp : '—' ∉ p) :
    findIdxBy sepAt (p ++ sep ++ s) = some p.length := by
  induction p with
  | nil => simp [findIdxBy, sep, sepAt]
  | cons c p ih =>
    have hpt : '—' ∉ p := fun hm => hp (List.mem_cons_of_mem c hm)
    have heq : (c :: p) ++ sep ++ s = c :: (p ++ sep ++ s) := by simp
    rw [heq, findIdxBy]
    have hfalse : sepAt (c :: (p ++ sep ++ s)) = false := by
      apply sepAt_false_of_second
      cases p with
      | nil => simp [sep]
      | cons d p2 =>
        have hd : d ≠ '—' := fun hdd => hp (by simp [hdd])
        simp [hd]
    rw [hfalse]
    simp only [Bool.false_eq_true, if_false]
    rw [ih hpt]
    rfl

theorem splitPatAux_succ (p : Str → Bool) (w f : Nat) (s : Str) :
    splitPatAux p w (f + 1) s =
      match findIdxBy p s with
      | none => [s]
      | some i => s.take i :: splitPatAux p w f (s.drop (i + w)) := rfl

theorem splitPatAux_of_none {p : Str → Bool} {w : Nat} (fuel : Nat) {s : Str}
    (h : findIdxBy p s = none) : splitPatAux p w fuel s = [s] := by
  cases fuel with
  | zero => rfl
  | succ f => rw [splitPatAux_succ, h]

theorem splitPatAux_sep_step {a : Str} (rest : Str) (hda : '—' ∉ a) (f : Nat) :
    splitPatAux sepAt 3 (f + 1) (a ++ sep ++ rest) = a :: splitPatAux sepAt 3 f rest := by
  have htake : (a ++ sep ++ rest).take a.length = a := by
    rw [List.append_assoc]
    exact List.take_left a (sep ++ rest)
  have hdrop : (a ++ sep ++ rest).drop (a.length + 3) = rest := by
    exact List.drop_left' (by simp [sep])
  rw [splitPatAux_succ, findIdxBy_sepAt_append rest hda]
  dsimp only
  rw [htake, hdrop]

theorem splitSep_pair {a b : Str} (hda : '—' ∉ a) (hdb : '—' ∉ b) :
    splitSep (a ++ sep ++ b) = [a, b] := by
  unfold splitSep
  have hlen : (a ++ sep ++ b).length = (a.length + b.length + 2) + 1 := by
    simp [sep]; omega
  rw [hlen, splitPatAux_sep_step b hda]
  rw [splitPatAux_of_none _ (findIdxBy_sepAt_none hdb)]

theorem splitSep_triple {a b c : Str} (hda : '—' ∉ a) (hdb : '—' ∉ b) (hdc : '—' ∉ c) :
    splitSep (a ++ sep ++ (b ++ sep ++ c)) = [a, b, c] := by
  unfold splitSep
  have hlen : (a ++ sep ++ (b ++ sep ++ c)).length
      = ((a.length + b.length + c.length + 4) + 1) + 1 := by
    simp [sep]; omega
  rw [hlen, splitPatAux_sep_step (b ++ sep ++ c) hda]
  rw [splitPatAux_sep_step c hdb]
  rw [splitPatAux_of_none _ (findIdxBy_sepAt_none hdc)]

/-- No case-insensitive `" by "` match begins inside `l` (bounded, decidable). -/
def noByMatch (l : Str) : Prop := ∀ i < l.length, byAt (l.drop i) = false

instance (l : Str) : Decidable (noByMatch l) := by
  unfold noByMatch
  infer_instance

theorem noByMatch_all {l : Str} (h : noByMatch l) (i : Nat) : byAt (l.drop i) = false := by
  by_cases hi : i < l.length
  · exact h i hi
  · rw [List.drop_eq_nil_of_le (le_of_not_lt hi)]
    rfl

theorem byAt_first4 (a b c d : Char) (r r2 : Str) :
    byAt (a :: b :: c :: d :: r) = byAt (a :: b :: c :: d :: r2) := rfl

theorem findIdxBy_byAt_none {l : Str} (h : noByMatch l) : findIdxBy byAt l = none := by
  induction l with
  | nil => rfl
  | cons c t ih =>
    rw [findIdxBy]
    have h0 : byAt (c :: t) = false := noByMatch_all h 0
    rw [h0]
    simp only [Bool.false_eq_true, if_false]
    have ht : noByMatch t := by
      intro i hi
      have := noByMatch_all h (i + 1)
      simpa [List.drop_succ_cons] using this
    rw [ih ht]
    rfl

theorem findIdxBy_byAt_append {X Y : Str} {β γ : Char}
    (hβ : β = 'b' ∨ β = 'B') (hγ : γ = 'y' ∨ γ = 'Y')
    (hX : noByMatch (X ++ [' '])) :
    findIdxBy byAt (X ++ [' ', β, γ, ' '] ++ Y) = some X.length := by
  induction X with
  | nil =>
    rcases hβ with rfl | rfl <;> rcases hγ with rfl | rfl <;> simp [findIdxBy, byAt]
  | cons c X2 ih =>
    have hX2 : noByMatch (X2 ++ [' ']) := by
      intro i hi
      have := noByMatch_all hX (i + 1)
      simpa [List.drop_succ_cons] using this
    have h0 : byAt (c :: (X2 ++ [' '])) = false := by
      have := noByMatch_all hX 0
      simpa using this
    have hfalse : byAt (c :: (X2 ++ [' ', β, γ, ' '] ++ Y)) = false := by
      match X2, h0 with
      | x1 :: x2 :: x3 :: r, h0 =>
        calc byAt (c :: (x1 :: x2 :: x3 :: r ++ [' ', β, γ, ' '] ++ Y))
            = byAt (c :: x1 :: x2 :: x3 :: (r ++ [' '])) := byAt_first4 ..
          _ = false := h0
      | [x1, x2], h0 =>
        calc byAt (c :: ([x1, x2] ++ [' ', β, γ, ' '] ++ Y))
            = byAt (c :: x1 :: x2 :: ' ' :: (β :: γ :: ' ' :: Y)) := rfl
          _ = byAt (c :: x1 :: x2 :: ' ' :: []) := byAt_first4 ..
          _ = false := h0
      | [x1], h0 => simp [byAt]
      | [], h0 => simp [byAt]
    have heq : (c :: X2) ++ [' ', β, γ, ' '] ++ Y = c :: (X2 ++ [' ', β, γ, ' '] ++ Y) := by
      simp
    rw [heq, findIdxBy, hfalse]
    simp only [Bool.false_eq_true, if_false]
    rw [ih hX2]
    rfl

theorem splitPatAux_by_step {X : Str} (Y : Str) {β γ : Char}
    (hβ : β = 'b' ∨ β = 'B') (hγ : γ = 'y' ∨ γ = 'Y')
    (hX : noByMatch (X ++ [' '])) (f : Nat) :
    splitPatAux byAt 4 (f + 1) (X ++ [' ', β, γ, ' '] ++ Y)
      = X :: splitPatAux byAt 4 f Y := by
  have htake : (X ++ [' ', β, γ, ' '] ++ Y).take X.length = X := by
    rw [List.append_assoc]
    exact List.take_left X ([' ', β, γ, ' '] ++ Y)
  have hdrop : (X ++ [' ', β, γ, ' '] ++ Y).drop (X.length + 4) = Y := by
    exact List.drop_left' (by simp)
  rw [splitPatAux_succ, findIdxBy_byAt_append hβ hγ hX]
  dsimp only
  rw [htake, hdrop]

theorem splitBy_pair {X Y : Str} {β γ : Char}
    (hβ : β = 'b' ∨ β = 'B') (hγ : γ = 'y' ∨ γ = 'Y')
    (hX : noByMatch (X ++ [' '])) (hY : noByMatch Y) :
    splitBy (X ++ [' ', β, γ, ' '] ++ Y) = [X, Y] := by
  unfold splitBy
  have hlen : (X ++ [' ', β, γ, ' '] ++ Y).length = (X.length + Y.length + 3) + 1 := by
    simp; omega
  rw [hlen, splitPatAux_by_step Y hβ hγ hX]
  rw [splitPatAux_of_none _ (findIdxBy_byAt_none hY)]

/-! ## The wrapping engine (`approxCharsThatFit`, `ellipsizeToFit`,
`wrapByWords`, `smartWrapValue`) -/

/-- Loose width estimate for Times at 16px: `approxPxPerChar()`. -/
def approxPxPerChar : Int := 7

/-- Embeds `approxCharsThatFit(pxWidth) = Math.max(10, Math.floor(pxWidth / 7))`. -/
def approxCharsThatFit (pxWidth : Int) : Nat :=
  max 10 (pxWidth.fdiv approxPxPerChar).toNat

/-- The first-line character budget of `smartWrapValue`, slack included:
`approxCharsThatFit(Math.max(90, availablePx - label.length*7 - gapPx)) + 10`. -/
def maxCharsLine1 (label : Str) (availablePx gapPx : Int) : Nat :=
  approxCharsThatFit (max 90 (availablePx - (label.length : Int) * approxPxPerChar - gapPx))
    + 10

/-- The continuation-line character budget of `smartWrapValue`, slack included:
`approxCharsThatFit(availablePx) + 10`. -/
def maxCharsLine2 (availablePx : Int) : Nat := approxCharsThatFit availablePx + 10

/-- Embeds `ellipsizeToFit(text, maxChars)` from the source: trim; empty becomes the
placeholder; a fitting value is returned whole; otherwise slice to
`maxChars - 1`, right-trim and append a single ellipsis character. -/
def ellipsizeToFit (text : Str) (maxChars : Nat) : Str :=
  let t := trim text
  if t = [] then emDash
  else if t.length ≤ maxChars then t
  else trimRight (t.take (maxChars - 1)) ++ ['…']

/-- JS `t.lastIndexOf(" ", pos)`: the largest index `i ≤ pos` with `t[i] = ' '`
(`none` for the JS result `-1`). -/
def lastSpaceLE (t : Str) (pos : Nat) : Option Nat :=
  ((List.range (min (pos + 1) t.length)).filter (fun i => t.getD i 'x' = ' ')).getLast?

/-- The `cut` constant of `wrapByWords`: `t.lastIndexOf(" ", maxChars)`,
`-1` when absent. -/
def wrapCut (t : Str) (maxChars : Nat) : Int :=
  match lastSpaceLE t maxChars with
  | none => -1
  | some i => (i : Int)

/-- The `first` constant of `wrapByWords`:
`(cut > 20 ? t.slice(0, cut) : t.slice(0, maxChars)).trim()`. -/
def wrapFirst (t : Str) (maxChars : Nat) : Str :=
  if 20 < wrapCut t maxChars then trim (t.take (wrapCut t maxChars).toNat)
  else trim (t.take maxChars)

/-- Embeds `wrapByWords(text, maxChars)` from the source. -/
def wrapByWords (text : Str) (maxChars : Nat) : List Str :=
  let t := trim text
  if t = [] then [emDash]
  else if t.length ≤ maxChars then [t]
  else
    let first := wrapFirst t maxChars
    let rest := trim (t.drop first.length)
    if rest = [] then [first] else [first, rest]

/-- Embeds `smartWrapValue(label, value, availablePx, gapPx, maxLines)` from the
source: single line when the value fits with slack; otherwise protect the
chunk after the last `" — "` separator on line 2 (ellipsized against the
continuation budget) and keep/word-wrap the remainder on line 1; with no
separator, plain word wrap with the second line ellipsized. -/
def smartWrapValue (label value : Str) (availablePx gapPx : Int) (maxLines : Nat) :
    List Str :=
  let v := jsOrEmpty (trim (jsOrEmpty value emDash)) emDash
  let line1Max := maxCharsLine1 label availablePx gapPx
  if v.length ≤ line1Max then [v]
  else if (findIdxBy sepAt v).isSome then
    let parts := splitSep v
    let meta := trim (parts.getLastD [])
    let main := trim (List.intercalate sep parts.dropLast)
    let line2Max := maxCharsLine2 availablePx
    let safe2 := ellipsizeToFit (['—', ' '] ++ meta) line2Max
    if main ≠ [] ∧ main.length ≤ line1Max then [main, safe2].take maxLines
    else
      let m1 := (wrapByWords (jsOrEmpty main v) line1Max).headD []
      [m1, safe2].take maxLines
  else
    let line2Max := maxCharsLine2 availablePx
    let lines := wrapByWords v line1Max
    if lines.length = 1 then lines
    else [lines.headD [], ellipsizeToFit (lines.getD 1 []) line2Max].take maxLines

-- concrete sanity checks against hand-evaluation of the JS source
example : maxCharsLine1 [] 0 0 = 22 := by decide
example : maxCharsLine2 0 = 20 := by decide
example : smartWrapValue [] (str "hello") 270 6 2 = [str "hello"] := by decide
example : smartWrapValue [] (str "a — b — cccccccccccccccccccc") 0 0 2
    = [str "a — b", str "— ccccccccccccccccc…"] := by decide
example : smartWrapValue [] (str " ") 270 6 2 = [emDash] := by decide

theorem approxCharsThatFit_ge (px : Int) : 10 ≤ approxCharsThatFit px :=
  le_max_left 10 _

theorem maxCharsLine1_ge (label : Str) (availablePx gapPx : Int) :
    20 ≤ maxCharsLine1 label availablePx gapPx :=
  Nat.add_le_add (approxCharsThatFit_ge _) (le_refl 10)

theorem maxCharsLine2_ge (availablePx : Int) : 20 ≤ maxCharsLine2 availablePx :=
  Nat.add_le_add (approxCharsThatFit_ge _) (le_refl 10)

theorem ellipsizeToFit_of_fits {t : Str} (ht : trim t = t) (hne : t ≠ []) {m : Nat}
    (hle : t.length ≤ m) : ellipsizeToFit t m = t := by
  unfold ellipsizeToFit
  rw [ht, if_neg hne, if_pos hle]

theorem trim_ellipsizeToFit_ne_nil (text : Str) (m : Nat) :
    trim (ellipsizeToFit text m) ≠ [] := by
  simp only [ellipsizeToFit]
  split
  · decide
  · split
    · rw [trim_trim]
      assumption
    · apply trim_ne_nil_of_mem (c := '…')
      · exact List.mem_append.mpr (Or.inr (by simp))
      · decide

theorem intercalate_singleton (x : Str) : List.intercalate sep [x] = x := by
  simp [List.intercalate]

/-- Characterization of `smartWrapValue` on a cleanly-formed oversized value
`p ++ " — " ++ s` with `p`, `s` trimmed, non-empty, free of em-dashes, and
`p` within the first-line budget: line 1 is `p` and line 2 is the protected
`"— " ++ s` chunk ellipsized against the continuation budget. -/
theorem smartWrap_clean {label p s : Str} {px gap : Int}
    (hp : trim p = p) (hpne : p ≠ []) (hs : trim s = s) (hsne : s ≠ [])
    (hdp : '—' ∉ p) (hds : '—' ∉ s)
    (hfit : p.length ≤ maxCharsLine1 label px gap)
    (hlong : maxCharsLine1 label px gap < (p ++ sep ++ s).length) :
    smartWrapValue label (p ++ sep ++ s) px gap 2
      = [p, ellipsizeToFit (['—', ' '] ++ s) (maxCharsLine2 px)] := by
  have hvne : (p ++ sep ++ s) ≠ [] := by
    intro h
    rw [List.append_eq_nil] at h
    exact hpne (List.append_eq_nil.mp h.1).1
  have hjs : jsOrEmpty (p ++ sep ++ s) emDash = p ++ sep ++ s := by
    unfold jsOrEmpty
    rw [if_neg hvne]
  have htrimv : trim (p ++ sep ++ s) = p ++ sep ++ s := trim_sandwich sep hp hpne hs hsne
  have hfind := findIdxBy_sepAt_append (p := p) s hdp
  have hsplit := splitSep_pair hdp hds
  simp only [smartWrapValue, hjs, htrimv, if_neg hvne, if_neg (not_le.mpr hlong), hfind,
    Option.isSome_some, if_true, hsplit, List.getLastD, List.dropLast,
    intercalate_singleton, hs, hp]
  rw [if_pos ⟨hpne, hfit⟩]
  simp [hs]

theorem trim_nil : trim [] = [] := rfl

/-- Characterization of `smartWrapValue` on a value that fits the first-line
budget (slack included) and is non-blank: a single line holding the trimmed
value, whatever `maxLines` is. -/
theorem smartWrap_fits {label value : Str} {px gap : Int} {ml : Nat}
    (hne : trim value ≠ [])
    (hfit : value.length ≤ maxCharsLine1 label px gap) :
    smartWrapValue label value px gap ml = [trim value] := by
  have hvne : value ≠ [] := by
    intro h
    rw [h, trim_nil] at hne
    exact hne rfl
  have hjs : jsOrEmpty value emDash = value := by
    unfold jsOrEmpty
    rw [if_neg hvne]
  have hjs2 : jsOrEmpty (trim value) emDash = trim value := by
    unfold jsOrEmpty
    rw [if_neg hne]
  have hlen : (trim value).length ≤ maxCharsLine1 label px gap :=
    le_trans (trim_length_le value) hfit
  simp only [smartWrapValue, hjs, hjs2, if_pos hlen]

theorem normVal_trim (value : Str) :
    trim (jsOrEmpty (trim (jsOrEmpty value emDash)) emDash)
      = jsOrEmpty (trim (jsOrEmpty value emDash)) emDash := by
  by_cases hv : value = []
  · subst hv
    decide
  · simp only [jsOrEmpty, hv, if_false]
    by_cases h : trim value = []
    · rw [if_pos h]
      decide
    · rw [if_neg h, trim_trim]

theorem normVal_ne (value : Str) :
    jsOrEmpty (trim (jsOrEmpty value emDash)) emDash ≠ [] := by
  by_cases hv : value = []
  · subst hv
    decide
  · simp only [jsOrEmpty, hv, if_false]
    by_cases h : trim value = []
    · rw [if_pos h]
      decide
    · rw [if_neg h]
      exact h

theorem first_trim_take_ne_nil {text : Str} {k : Nat} (hk : 1 ≤ k)
    (h : trim text ≠ []) : trim ((trim text).take k) ≠ [] := by
  cases ht : trim text with
  | nil => exact absurd ht h
  | cons c t2 =>
    have hcw := trim_head_not_ws ht
    cases k with
    | zero => omega
    | succ k2 =>
      rw [List.take_succ_cons]
      exact trim_ne_nil_of_mem (List.mem_cons_self c _) hcw

theorem trim_wrapFirst_ne {text : Str} {m : Nat} (hm : 1 ≤ m)
    (hne : trim text ≠ []) : trim (wrapFirst (trim text) m) ≠ [] := by
  unfold wrapFirst
  split
  · rename_i hcut
    rw [trim_trim]
    exact first_trim_take_ne_nil (by omega) hne
  · rw [trim_trim]
    exact first_trim_take_ne_nil hm hne

theorem wrapByWords_len (text : Str) (m : Nat) :
    (wrapByWords text m).length = 1 ∨ (wrapByWords text m).length = 2 := by
  unfold wrapByWords
  by_cases h1 : trim text = []
  · simp [h1]
  · by_cases h2 : (trim text).length ≤ m
    · simp [h1, h2]
    · by_cases h3 :
          trim ((trim text).drop (wrapFirst (trim text) m).length) = []
      · simp [h1, h2, h3]
      · simp [h1, h2, h3]

theorem wrapByWords_ne_nil (text : Str) (m : Nat) : wrapByWords text m ≠ [] := by
  rcases wrapByWords_len text m with h | h <;> exact List.ne_nil_of_length_pos (by omega)

theorem headD_mem {l : List Str} (h : l ≠ []) : l.headD [] ∈ l := by
  cases l with
  | nil => exact absurd rfl h
  | cons a t => simp

theorem wrapByWords_trim_ne {text : Str} {m : Nat} (hm : 1 ≤ m) :
    ∀ l ∈ wrapByWords text m, trim l ≠ [] := by
  intro l hl
  unfold wrapByWords at hl
  by_cases h1 : trim text = []
  · simp [h1] at hl
    subst hl
    decide
  · by_cases h2 : (trim text).length ≤ m
    · simp [h1, h2] at hl
      subst hl
      rw [trim_trim]
      exact h1
    · by_cases h3 :
          trim ((trim text).drop (wrapFirst (trim text) m).length) = []
      · simp [h1, h2, h3] at hl
        subst hl
        exact trim_wrapFirst_ne hm h1
      · simp [h1, h2, h3] at hl
        rcases hl with rfl | rfl
        · exact trim_wrapFirst_ne hm h1
        · rw [trim_trim]
          exact h3

theorem take_two_pair (x y : Str) : List.take 2 [x, y] = [x, y] := rfl

/-- Invariant of `smartWrapValue` at `maxLines = 2`: between one and two
lines, each non-empty after trimming. -/
theorem smartWrap_spec (label value : Str) (px gap : Int) :
    1 ≤ (smartWrapValue label value px gap 2).length ∧
      (smartWrapValue label value px gap 2).length ≤ 2 ∧
      ∀ l ∈ smartWrapValue label value px gap 2, trim l ≠ [] := by
  have hvt := normVal_trim value
  have hvne := normVal_ne value
  have hL1 := maxCharsLine1_ge label px gap
  simp only [smartWrapValue]
  generalize hgen : jsOrEmpty (trim (jsOrEmpty value emDash)) emDash = v at hvt hvne ⊢
  split
  · refine ⟨by simp, by simp, ?_⟩
    intro l hl
    simp only [List.mem_singleton] at hl
    subst hl
    rw [hvt]
    exact hvne
  · split
    · split
      · rename_i hmain
        refine ⟨by simp [take_two_pair], by simp [take_two_pair], ?_⟩
        intro l hl
        rw [take_two_pair] at hl
        simp only [List.mem_cons, List.mem_singleton, List.not_mem_nil, or_false] at hl
        rcases hl with rfl | rfl
        · rw [trim_trim]
          exact hmain.1
        · exact trim_ellipsizeToFit_ne_nil _ _
      · refine ⟨by simp [take_two_pair], by simp [take_two_pair], ?_⟩
        intro l hl
        rw [take_two_pair] at hl
        simp only [List.mem_cons, List.mem_singleton, List.not_mem_nil, or_false] at hl
        rcases hl with rfl | rfl
        · exact wrapByWords_trim_ne (by omega) _
            (headD_mem (wrapByWords_ne_nil _ _))
        · exact trim_ellipsizeToFit_ne_nil _ _
    · split
      · rename_i hlen1
        refine ⟨by rw [hlen1], by rw [hlen1]; omega, ?_⟩
        intro l hl
        exact wrapByWords_trim_ne (by omega) _ hl
      · refine ⟨by simp [take_two_pair], by simp [take_two_pair], ?_⟩
        intro l hl
        rw [take_two_pair] at hl
        simp only [List.mem_cons, List.mem_singleton, List.not_mem_nil, or_false] at hl
        rcases hl with rfl | rfl
        · exact wrapByWords_trim_ne (by omega) _
            (headD_mem (wrapByWords_ne_nil _ _))
        · exact trim_ellipsizeToFit_ne_nil _ _

theorem intercalate_pair (x y : Str) : List.intercalate sep [x, y] = x ++ sep ++ y := by
  simp [List.intercalate]

/-- Characterization of `smartWrapValue` on an oversized value containing the
separator twice (`a ++ " — " ++ b ++ " — " ++ c` with clean parts): only the
chunk `c` after the last separator is protected on line 2; the whole prefix
`a ++ " — " ++ b` is the wrappable main part on line 1. -/
theorem smartWrap_lastSep {label a b c : Str} {px gap : Int}
    (ha : trim a = a) (hane : a ≠ []) (hb : trim b = b) (hbne : b ≠ [])
    (hc : trim c = c) (hcne : c ≠ [])
    (hda : '—' ∉ a) (hdb : '—' ∉ b) (hdc : '—' ∉ c)
    (hlong : maxCharsLine1 label px gap < (a ++ sep ++ (b ++ sep ++ c)).length) :
    smartWrapValue label (a ++ sep ++ (b ++ sep ++ c)) px gap 2
      = [if (a ++ sep ++ b).length ≤ maxCharsLine1 label px gap
            then a ++ sep ++ b
            else (wrapByWords (a ++ sep ++ b) (maxCharsLine1 label px gap)).headD [],
         ellipsizeToFit (['—', ' '] ++ c) (maxCharsLine2 px)] := by
  have hvne : (a ++ sep ++ (b ++ sep ++ c)) ≠ [] := by simp [sep]
  have hbcne : (b ++ sep ++ c) ≠ [] := by simp [sep]
  have hbc : trim (b ++ sep ++ c) = b ++ sep ++ c := trim_sandwich sep hb hbne hc hcne
  have htrimv : trim (a ++ sep ++ (b ++ sep ++ c)) = a ++ sep ++ (b ++ sep ++ c) := by
    have := trim_sandwich (p := a) (s := b ++ sep ++ c) sep ha hane hbc hbcne
    simpa [List.append_assoc] using this
  have hjs : jsOrEmpty (a ++ sep ++ (b ++ sep ++ c)) emDash
      = a ++ sep ++ (b ++ sep ++ c) := by
    unfold jsOrEmpty
    rw [if_neg hvne]
  have hfind := findIdxBy_sepAt_append (p := a) (b ++ sep ++ c) hda
  have hsplit := splitSep_triple hda hdb hdc
  have hmain : trim (a ++ sep ++ b) = a ++ sep ++ b := trim_sandwich sep ha hane hb hbne
  have hmainne : a ++ sep ++ b ≠ [] := by simp [sep]
  simp only [smartWrapValue, hjs, htrimv, if_neg (not_le.mpr hlong), hfind,
    Option.isSome_some, if_true, hsplit, List.getLastD, List.dropLast,
    intercalate_pair, hmain, hc]
  by_cases hm : (a ++ sep ++ b).length ≤ maxCharsLine1 label px gap
  · rw [if_pos ⟨hmainne, hm⟩, if_pos hm]
    simp [hc]
  · rw [if_neg (fun hand => hm hand.2), if_neg hm]
    have hjsm : jsOrEmpty (a ++ sep ++ b) (a ++ sep ++ (b ++ sep ++ c))
        = a ++ sep ++ b := by
      unfold jsOrEmpty
      rw [if_neg hmainne]
    rw [hjsm]
    simp [hc]

/-! ## Feed item normalizers -/

/-- One rendered record: the `{ text, link }` objects built by the fetchers. -/
structure LineOut where
  text : Str
  link : Option Str
deriving DecidableEq

/-- Embeds `(x || "").trim() || null` as applied to link fields. -/
def jsLink (l : Str) : Option Str :=
  if trim l = [] then none else some (trim l)

/-- The `/ by /i` title-splitting block of `getGoodreadsLatest`:
`title = parts[0].trim()` and the author fallback
`parts.slice(1).join(" by ").trim()`; identity (with empty author part)
when no case-insensitive `" by "` occurs. -/
def goodreadsTitleSplit (rawTitle : Str) : Str × Str :=
  if (findIdxBy byAt rawTitle).isSome then
    let parts := splitBy rawTitle
    (trim (parts.headD []), trim (List.intercalate byLit parts.tail))
  else (rawTitle, [])

/-- A parsed Goodreads RSS item: title, link and creator-like fields. -/
structure FeedItem where
  title : Option Str
  link : Option Str
  author_name : Option Str
  author : Option Str
  dcCreator : Option Str
  creator : Option Str
deriving DecidableEq

/-- Embeds `getGoodreadsLatest` of the source, past the fetch/parse boundary:
`none` models a missing RSS feed or missing first item. -/
def getGoodreadsLine : Option FeedItem → LineOut
  | none => ⟨str "Last Read: —", none⟩
  | some item =>
    let rawTitle := trim (item.title.getD [])
    let link := jsLink (item.link.getD [])
    let cands := ([item.author_name, item.author, item.dcCreator, item.creator].map
        (fun v => trim (v.getD []))).filter (fun x => x ≠ [])
    let author0 := cands.headD []
    let ts := goodreadsTitleSplit rawTitle
    let author := if author0 = [] then ts.2 else author0
    if ts.1 = [] then ⟨str "Last Read: —", link⟩
    else ⟨str "Last Read: " ++ ts.1 ++ (if author = [] then [] else sep ++ author), link⟩

-- sanity: the common shape "Book by Author"
example : goodreadsTitleSplit (str "The Little Prince by Antoine") =
    (str "The Little Prince", str "Antoine") := by decide
example : goodreadsTitleSplit (str "A by B BY C") = (str "A", str "B by C") := by decide

/-- JS `\d`: an ASCII digit. -/
def isDigitC (c : Char) : Bool := decide ('0' ≤ c) && decide (c ≤ '9')

/-- Head-match of the tail `,\s*(\d{4})` of the regex `/^(.+?),\s*(\d{4})/`:
a comma, optional whitespace, then four digits; yields the year group. -/
def commaYearAt : Str → Option Str
  | ',' :: rest =>
    let r2 := rest.dropWhile isWS
    if 4 ≤ r2.length ∧ (r2.take 4).all isDigitC then some (r2.take 4) else none
  | _ => none

/-- Head-match of the tail `\s*\((\d{4})\)\s*$` of the anchored paren-year
regex; yields the year group. -/
def parenYearAt (l : Str) : Option Str :=
  match l.dropWhile isWS with
  | '(' :: rest =>
    if 4 ≤ rest.length ∧ (rest.take 4).all isDigitC then
      match rest.drop 4 with
      | ')' :: tail => if tail.dropWhile isWS = [] then some (rest.take 4) else none
      | _ => none
    else none
  | _ => none

/-- Scan suffixes left to right for a head-match, returning the offset of the
first match and its payload: the lazy `(.+?)` backtracking order. -/
def scanFrom (f : Str → Option Str) : Str → Option (Nat × Str)
  | [] => none
  | c :: t =>
    match f (c :: t) with
    | some y => some (0, y)
    | none => (scanFrom f t).map (fun pr => (pr.1 + 1, pr.2))

/-- Embeds `clean.match` against the comma-year regex: leftmost-shortest non-empty group 1
followed by a comma, whitespace and a four-digit year. -/
def matchCommaYear (s : Str) : Option (Str × Str) :=
  match scanFrom commaYearAt (s.drop 1) with
  | none => none
  | some pr => some (s.take (pr.1 + 1), pr.2)

/-- Embeds `clean.match` against the anchored paren-year regex. -/
def matchParenYear (s : Str) : Option (Str × Str) :=
  match scanFrom parenYearAt (s.drop 1) with
  | none => none
  | some pr => some (s.take (pr.1 + 1), pr.2)

/-- Embeds the rating strip `t.split(" - ")[0]`: the segment before the first rating delimiter. -/
def firstSegDash (t : Str) : Str :=
  match findIdxBy dashAt t with
  | none => t
  | some i => t.take i

/-- Embeds `parseLetterboxdTitle(rawTitle)` of the source: strip the rating suffix,
then canonicalize `"Title, YYYY"` or `"Title (YYYY)"` to `"Title (YYYY)"`,
else return the cleaned title (or the placeholder when empty). -/
def parseLetterboxdTitle (rawTitle : Str) : Str :=
  let t := trim rawTitle
  let clean := trim (firstSegDash t)
  match matchCommaYear clean with
  | some pr => trim pr.1 ++ str " (" ++ trim pr.2 ++ str ")"
  | none =>
    match matchParenYear clean with
    | some pr => trim pr.1 ++ str " (" ++ trim pr.2 ++ str ")"
    | none => jsOrEmpty clean emDash

-- sanity
example : parseLetterboxdTitle (str "Hamnet, 2025 - ★★★★") = str "Hamnet (2025)" := by
  decide

/-- A parsed Letterboxd RSS item. -/
structure LbItem where
  title : Option Str
  link : Option Str
deriving DecidableEq

/-- Embeds `getLetterboxdLatest` of the source past the fetch boundary. -/
def getLetterboxdLine : Option LbItem → LineOut
  | none => ⟨str "Last Watched: —", none⟩
  | some item =>
    let movie := parseLetterboxdTitle (trim (item.title.getD []))
    let link := jsLink (item.link.getD [])
    ⟨str "Last Watched: " ++ jsOrEmpty movie emDash, link⟩

/-- A JSON scalar as it can appear in the now-playing attribute. -/
inductive JVal where
  | jstr : Str → JVal
  | jbool : Bool → JVal
deriving DecidableEq

/-- JS `Boolean(x)` on an optional JSON scalar: absent and the empty string
are falsy; any non-empty string (including `"true"`) is truthy. -/
def truthy : Option JVal → Bool
  | none => false
  | some (JVal.jstr s) => decide (s ≠ [])
  | some (JVal.jbool b) => b

/-- The label choice `nowPlaying ? "Now Listening To" : "Last Listened To"`. -/
def lastfmLabel (np : Option JVal) : Str :=
  if truthy np then str "Now Listening To" else str "Last Listened To"

/-- A parsed Last.fm recent-track item (`item.name`, `item.artist["#text"]`,
`item.artist.name`, `item.url`, `item["@attr"].nowplaying`). -/
structure LastfmTrack where
  trackName : Option Str
  artistText : Option Str
  artistName : Option Str
  url : Option Str
  nowplaying : Option JVal
deriving DecidableEq

/-- Embeds `getLastfmLine` of the source past the fetch boundary. -/
def getLastfmLine : Option LastfmTrack → LineOut
  | none => ⟨str "Last Listened To: —", none⟩
  | some item =>
    let track := trim (item.trackName.getD [])
    let artist := trim (jsOrEmpty (item.artistText.getD []) (item.artistName.getD []))
    let link := jsLink (item.url.getD [])
    let value := trim (List.intercalate sep ([track, artist].filter (fun x => x ≠ [])))
    ⟨lastfmLabel item.nowplaying ++ str ": " ++ jsOrEmpty value emDash, link⟩

/-! ## Layout: `splitLabelValue` and the `renderSvg` height computation -/

/-- Embeds `splitLabelValue(lineText)`: split at the first colon, label keeps the
colon and is trimmed, the value is `trimStart`ed. -/
def splitLabelValue (t : Str) : Str × Str :=
  match t.findIdx? (fun c => c = ':') with
  | none => (trim t, [])
  | some i => (trim (t.take (i + 1)), trimLeft (t.drop (i + 1)))

def stylePaddingTop : Nat := 18
def stylePaddingBottom : Nat := 14
def styleLineGap : Nat := 24
def styleGapPx : Int := 6
def styleMaxLines : Nat := 2

/-- Embeds `Math.max(40, width - paddingLeft - paddingRight)` with the STYLE values
`width = 270`, `paddingLeft = paddingRight = 0`. -/
def availablePxConst : Int := max 40 (270 - 0 - 0)

/-- The wrapped value lines of one record inside `renderSvg`. -/
def wrappedOf (line : LineOut) : List Str :=
  smartWrapValue (splitLabelValue line.text).1 (splitLabelValue line.text).2
    availablePxConst styleGapPx styleMaxLines

/-- The line total `blocks.reduce((sum, b) => sum + Math.max(1, b.wrapped.length), 0)`. -/
def totalLinesOf (lines : List LineOut) : Nat :=
  (lines.map wrappedOf).foldl (fun acc bl => acc + max 1 bl.length) 0

/-- The height formula `height = paddingTop + paddingBottom + totalLines * lineGap`. -/
def svgHeightOf (lines : List LineOut) : Nat :=
  stylePaddingTop + stylePaddingBottom + totalLinesOf lines * styleLineGap

/-! ## Remaining helper lemmas -/

theorem trimRight_append_distrib {y : Str} (x : Str) (h : trimRight y ≠ []) :
    trimRight (x ++ y) = x ++ trimRight y := by
  have hrev : y.reverse.dropWhile isWS ≠ [] := by
    intro hnil
    apply h
    unfold trimRight
    rw [hnil]
    rfl
  unfold trimRight
  rw [List.reverse_append, List.dropWhile_append]
  simp only [List.isEmpty_iff, hrev, if_false]
  rw [List.reverse_append, List.reverse_reverse]

theorem trimRight_cons_ne_nil {c : Char} (t : Str) (hc : isWS c = false) :
    trimRight (c :: t) ≠ [] := by
  intro h
  rw [trimRight_eq_nil_iff] at h
  have := h c (List.mem_cons_self c t)
  rw [this] at hc
  exact absurd hc (by simp)

theorem ellipsize_dash_prefix {s : Str} (hs : trim s = s) (hsne : s ≠ []) {m : Nat}
    (hm : 20 ≤ m) :
    List.IsPrefix ['—', ' '] (ellipsizeToFit (['—', ' '] ++ s) m) := by
  obtain ⟨s0, s1, rfl⟩ : ∃ s0 s1, s = s0 :: s1 := by
    cases s with
    | nil => exact absurd rfl hsne
    | cons a b => exact ⟨a, b, rfl⟩
  have htr : trim (['—', ' '] ++ s0 :: s1) = ['—', ' '] ++ s0 :: s1 := by
    have := trim_sandwich (p := ['—']) (s := s0 :: s1) [' '] (by decide) (by decide)
      hs hsne
    simpa using this
  have hs0 : isWS s0 = false := trim_head_not_ws hs
  unfold ellipsizeToFit
  rw [htr]
  have hne2 : (['—', ' '] ++ s0 :: s1) ≠ [] := by simp
  rw [if_neg hne2]
  by_cases hfits : (['—', ' '] ++ s0 :: s1).length ≤ m
  · rw [if_pos hfits]
    exact ⟨s0 :: s1, rfl⟩
  · rw [if_neg hfits]
    have hm3 : ∃ k, m - 1 = k + 3 := ⟨m - 4, by omega⟩
    obtain ⟨k, hk⟩ := hm3
    rw [hk]
    have htake : (['—', ' '] ++ s0 :: s1).take (k + 3)
        = ['—', ' '] ++ (s0 :: s1.take k) := by
      simp [List.take_succ_cons]
    rw [htake]
    rw [trimRight_append_distrib ['—', ' ']
      (trimRight_cons_ne_nil (s1.take k) hs0)]
    exact ⟨trimRight (s0 :: s1.take k) ++ ['…'], by simp⟩

theorem intercalate_one (z x : Str) : List.intercalate z [x] = x := by
  simp [List.intercalate]

theorem goodreadsTitleSplit_clean {X Y : Str} {β γ : Char}
    (hβ : β = 'b' ∨ β = 'B') (hγ : γ = 'y' ∨ γ = 'Y')
    (hX : noByMatch (X ++ [' '])) (hY : noByMatch Y) :
    goodreadsTitleSplit (X ++ [' ', β, γ, ' '] ++ Y) = (trim X, trim Y) := by
  unfold goodreadsTitleSplit
  rw [findIdxBy_byAt_append hβ hγ hX]
  simp only [Option.isSome_some, if_true]
  rw [splitBy_pair hβ hγ hX hY]
  simp [intercalate_one]

theorem totalLines_eq (lines : List LineOut) :
    totalLinesOf lines = (lines.map (fun l => (wrappedOf l).length)).sum := by
  suffices h : ∀ (L : List LineOut) (acc : Nat),
      (L.map wrappedOf).foldl (fun a bl => a + max 1 bl.length) acc
        = acc + (L.map (fun l => (wrappedOf l).length)).sum by
    have h0 := h lines 0
    unfold totalLinesOf
    rw [h0]
    omega
  intro L
  induction L with
  | nil => intro acc; simp
  | cons x t ih =>
    intro acc
    have h1 : 1 ≤ (wrappedOf x).length := (smartWrap_spec _ _ _ _).1
    simp only [List.map_cons, List.foldl_cons, ih, List.sum_cons]
    rw [max_eq_right h1]
    omega

/-! ## Claim theorems -/

/-- C1 counterexample: the claim quantifies over every decomposition
`value = primary + " — " + secondary`; with `primary = "a"` and
`secondary = "b — cccccccccccccccccccc"` (the secondary itself containing the
separator), the code splits at the *last* separator, so line 1 is
`"a — b"`, not `primary = "a"`, refuting the claim as stated. -/
theorem C1_counterexample :
    str "a — b — cccccccccccccccccccc"
        = str "a" ++ sep ++ str "b — cccccccccccccccccccc"
      ∧ (str "a").length ≤ maxCharsLine1 [] 0 0
      ∧ maxCharsLine1 [] 0 0 < (str "a — b — cccccccccccccccccccc").length
      ∧ smartWrapValue [] (str "a — b — cccccccccccccccccccc") 0 0 2
          = [str "a — b", str "— ccccccccccccccccc…"]
      ∧ str "a — b" ≠ str "a" := by
  decide

/-- C1 (amended): for `value = primary ++ " — " ++ secondary` with `primary`
and `secondary` trimmed, non-empty and em-dash-free (so the decomposition at
the separator is unambiguous), `primary` within the first-line budget plus
slack but the full value exceeding it, `smartWrapValue` returns exactly two
lines: `primary`, and the `"— " ++ secondary` unit — kept whole whenever it
fits the continuation budget, otherwise ellipsized as a whole, still
beginning with the `"— "` prefix. -/
theorem C1_wrap_protected_secondary {label p s : Str} {px gap : Int}
    (hp : trim p = p) (hpne : p ≠ []) (hs : trim s = s) (hsne : s ≠ [])
    (hdp : '—' ∉ p) (hds : '—' ∉ s)
    (hfit : p.length ≤ maxCharsLine1 label px gap)
    (hlong : maxCharsLine1 label px gap < (p ++ sep ++ s).length) :
    smartWrapValue label (p ++ sep ++ s) px gap 2
        = [p, ellipsizeToFit (['—', ' '] ++ s) (maxCharsLine2 px)]
      ∧ ((['—', ' '] ++ s).length ≤ maxCharsLine2 px →
          ellipsizeToFit (['—', ' '] ++ s) (maxCharsLine2 px) = ['—', ' '] ++ s)
      ∧ List.IsPrefix ['—', ' ']
          (ellipsizeToFit (['—', ' '] ++ s) (maxCharsLine2 px)) := by
  refine ⟨smartWrap_clean hp hpne hs hsne hdp hds hfit hlong, ?_, ?_⟩
  · intro hfit2
    have htr : trim (['—', ' '] ++ s) = ['—', ' '] ++ s := by
      have := trim_sandwich (p := ['—']) (s := s) [' '] (by decide) (by decide) hs hsne
      simpa using this
    exact ellipsizeToFit_of_fits htr (by simp) hfit2
  · exact ellipsize_dash_prefix hs hsne (maxCharsLine2_ge px)

/-- Witness for C1 at `primary = "abcd"`, `secondary = 19 × "e"`. -/
theorem C1_witness :
    trim (str "abcd") = str "abcd" ∧ str "abcd" ≠ []
      ∧ trim (str "eeeeeeeeeeeeeeeeeee") = str "eeeeeeeeeeeeeeeeeee"
      ∧ str "eeeeeeeeeeeeeeeeeee" ≠ []
      ∧ '—' ∉ str "abcd" ∧ '—' ∉ str "eeeeeeeeeeeeeeeeeee"
      ∧ (str "abcd").length ≤ maxCharsLine1 [] 0 0
      ∧ maxCharsLine1 [] 0 0 < (str "abcd" ++ sep ++ str "eeeeeeeeeeeeeeeeeee").length
      ∧ (smartWrapValue [] (str "abcd" ++ sep ++ str "eeeeeeeeeeeeeeeeeee") 0 0 2
            = [str "abcd",
               ellipsizeToFit (['—', ' '] ++ str "eeeeeeeeeeeeeeeeeee") (maxCharsLine2 0)]
          ∧ ((['—', ' '] ++ str "eeeeeeeeeeeeeeeeeee").length ≤ maxCharsLine2 0 →
              ellipsizeToFit (['—', ' '] ++ str "eeeeeeeeeeeeeeeeeee") (maxCharsLine2 0)
                = ['—', ' '] ++ str "eeeeeeeeeeeeeeeeeee")
          ∧ List.IsPrefix ['—', ' ']
              (ellipsizeToFit (['—', ' '] ++ str "eeeeeeeeeeeeeeeeeee") (maxCharsLine2 0))) :=
  ⟨by decide, by decide, by decide, by decide, by decide, by decide, by decide, by decide,
    C1_wrap_protected_secondary (by decide) (by decide) (by decide) (by decide)
      (by decide) (by decide) (by decide) (by decide)⟩

/-- C2 counterexample: for the whitespace-only value `" "` (length within
every budget) the code returns the placeholder `["—"]`, not
`[trim(" ")] = [""]`, refuting the claim as stated. -/
theorem C2_counterexample :
    (str " ").length ≤ maxCharsLine1 [] 270 6
      ∧ smartWrapValue [] (str " ") 270 6 2 ≠ [trim (str " ")]
      ∧ smartWrapValue [] (str " ") 270 6 2 = [emDash] := by
  decide

/-- C2 (amended): for every value that is non-blank (non-empty after
trimming) and whose length is at most the first-line budget plus slack,
`smartWrapValue` returns exactly one line equal to the trimmed value, for any
`maxLines`; a value that trims to empty yields the placeholder `["—"]`
instead. -/
theorem C2_single_line {label value : Str} {px gap : Int} {maxLines : Nat}
    (hne : trim value ≠ [])
    (hfit : value.length ≤ maxCharsLine1 label px gap) :
    smartWrapValue label value px gap maxLines = [trim value] :=
  smartWrap_fits hne hfit

/-- Witness for C2 at `value = "hello"` with the production budgets. -/
theorem C2_witness :
    trim (str "hello") ≠ []
      ∧ (str "hello").length ≤ maxCharsLine1 [] 270 6
      ∧ smartWrapValue [] (str "hello") 270 6 2 = [trim (str "hello")] :=
  ⟨by decide, by decide, C2_single_line (by decide) (by decide)⟩

/-- C3: for every label, value and pixel budgets, `smartWrapValue` at
`maxLines = 2` returns between 1 and 2 lines, each non-empty after
trimming. -/
theorem C3_wrap_invariant (label value : Str) (availablePx gapPx : Int) :
    1 ≤ (smartWrapValue label value availablePx gapPx 2).length
      ∧ (smartWrapValue label value availablePx gapPx 2).length ≤ 2
      ∧ ∀ l ∈ smartWrapValue label value availablePx gapPx 2, trim l ≠ [] :=
  smartWrap_spec label value availablePx gapPx

/-- Witness for C3 at a concrete record. -/
theorem C3_witness :
    1 ≤ (smartWrapValue [] (str "hello") 270 6 2).length
      ∧ (smartWrapValue [] (str "hello") 270 6 2).length ≤ 2
      ∧ trim (str "hello") ≠ [] :=
  ⟨(C3_wrap_invariant [] (str "hello") 270 6).1,
   (C3_wrap_invariant [] (str "hello") 270 6).2.1,
   (C3_wrap_invariant [] (str "hello") 270 6).2.2 (str "hello") (by decide)⟩

/-- C4 counterexample: the value `"aaaaaaaaaaaaaaaa  — bbb"` (two spaces
before the separator) wraps to two lines, but re-joining them with a single
space shortens the value enough to fit on one line, so re-wrapping returns a
single line, refuting the idempotence claim as stated. -/
theorem C4_counterexample :
    smartWrapValue [] (str "aaaaaaaaaaaaaaaa  — bbb") 0 0 2
        = [str "aaaaaaaaaaaaaaaa", str "— bbb"]
      ∧ str "aaaaaaaaaaaaaaaa" ++ [' '] ++ str "— bbb" = str "aaaaaaaaaaaaaaaa — bbb"
      ∧ smartWrapValue [] (str "aaaaaaaaaaaaaaaa — bbb") 0 0 2
          = [str "aaaaaaaaaaaaaaaa — bbb"]
      ∧ [str "aaaaaaaaaaaaaaaa — bbb"] ≠ [str "aaaaaaaaaaaaaaaa", str "— bbb"] := by
  decide

/-- C4 (amended): for a cleanly-spaced oversized value
`primary ++ " — " ++ secondary` (trimmed, non-empty, em-dash-free parts,
primary within the first-line budget) whose second line is not ellipsized,
re-joining the two produced lines with a single space and re-wrapping with
the same budgets reproduces exactly the same two-line split. -/
theorem C4_rewrap_idempotent {label p s : Str} {px gap : Int}
    (hp : trim p = p) (hpne : p ≠ []) (hs : trim s = s) (hsne : s ≠ [])
    (hdp : '—' ∉ p) (hds : '—' ∉ s)
    (hfit : p.length ≤ maxCharsLine1 label px gap)
    (hlong : maxCharsLine1 label px gap < (p ++ sep ++ s).length)
    (hfit2 : (['—', ' '] ++ s).length ≤ maxCharsLine2 px) :
    smartWrapValue label (p ++ sep ++ s) px gap 2 = [p, ['—', ' '] ++ s]
      ∧ smartWrapValue label (p ++ [' '] ++ (['—', ' '] ++ s)) px gap 2
          = [p, ['—', ' '] ++ s] := by
  have htr : trim (['—', ' '] ++ s) = ['—', ' '] ++ s := by
    have := trim_sandwich (p := ['—']) (s := s) [' '] (by decide) (by decide) hs hsne
    simpa using this
  have hell : ellipsizeToFit (['—', ' '] ++ s) (maxCharsLine2 px) = ['—', ' '] ++ s :=
    ellipsizeToFit_of_fits htr (by simp) hfit2
  have h1 := smartWrap_clean hp hpne hs hsne hdp hds hfit hlong
  rw [hell] at h1
  have harg : p ++ [' '] ++ (['—', ' '] ++ s) = p ++ sep ++ s := by
    simp [sep]
  rw [harg]
  exact ⟨h1, h1⟩

/-- Witness for C4 at `primary = 20 × "a"`, `secondary = "bb"`. -/
theorem C4_witness :
    trim (str "aaaaaaaaaaaaaaaaaaaa") = str "aaaaaaaaaaaaaaaaaaaa"
      ∧ str "aaaaaaaaaaaaaaaaaaaa" ≠ []
      ∧ trim (str "bb") = str "bb" ∧ str "bb" ≠ []
      ∧ '—' ∉ str "aaaaaaaaaaaaaaaaaaaa" ∧ '—' ∉ str "bb"
      ∧ (str "aaaaaaaaaaaaaaaaaaaa").length ≤ maxCharsLine1 [] 0 0
      ∧ maxCharsLine1 [] 0 0 < (str "aaaaaaaaaaaaaaaaaaaa" ++ sep ++ str "bb").length
      ∧ (['—', ' '] ++ str "bb").length ≤ maxCharsLine2 0
      ∧ (smartWrapValue [] (str "aaaaaaaaaaaaaaaaaaaa" ++ sep ++ str "bb") 0 0 2
            = [str "aaaaaaaaaaaaaaaaaaaa", ['—', ' '] ++ str "bb"]
          ∧ smartWrapValue []
              (str "aaaaaaaaaaaaaaaaaaaa" ++ [' '] ++ (['—', ' '] ++ str "bb")) 0 0 2
            = [str "aaaaaaaaaaaaaaaaaaaa", ['—', ' '] ++ str "bb"]) :=
  ⟨by decide, by decide, by decide, by decide, by decide, by decide, by decide, by decide,
    by decide,
    C4_rewrap_idempotent (by decide) (by decide) (by decide) (by decide) (by decide)
      (by decide) (by decide) (by decide) (by decide)⟩

/-- C5 counterexample: for the title `"A by B BY C"` (shape `X by Y` with
`X = "A"`, `Y = "B BY C"` at the first delimiter), the code re-joins the
split pieces with lowercase `" by "`, so the returned secondary is
`"B by C"`, not `trim(Y) = "B BY C"`, refuting the claim as stated. -/
theorem C5_counterexample :
    str "A by B BY C" = str "A" ++ [' ', 'b', 'y', ' '] ++ str "B BY C"
      ∧ goodreadsTitleSplit (str "A by B BY C") = (str "A", str "B by C")
      ∧ str "B by C" ≠ trim (str "B BY C") := by
  decide

/-- C5 (amended): for every title of the shape `X ++ d ++ Y` where `d` is a
case variant of the delimiter `" by "`, no case-insensitive `" by "` match
begins inside `X` (or at its boundary) or inside `Y`, and `X`, `Y` are
non-empty, the normalizer's title split returns
`primary = trim X`, `secondary = trim Y` — splitting at the first delimiter
occurrence, so an author name containing `"by"` (such as `"Byron"`) is not
split; when `Y` itself contains further case-insensitive delimiters, they are
re-joined normalized to lowercase `" by "`. -/
theorem C5_goodreads_title_split {X Y : Str} {β γ : Char}
    (hβ : β = 'b' ∨ β = 'B') (hγ : γ = 'y' ∨ γ = 'Y')
    (_hXne : X ≠ []) (_hYne : Y ≠ [])
    (hX : noByMatch (X ++ [' '])) (hY : noByMatch Y) :
    goodreadsTitleSplit (X ++ [' ', β, γ, ' '] ++ Y) = (trim X, trim Y) :=
  goodreadsTitleSplit_clean hβ hγ hX hY

/-- Witness for C5 at `"Dracula by Bram Stoker"`. -/
theorem C5_witness :
    ('b' = 'b' ∨ 'b' = 'B') ∧ ('y' = 'y' ∨ 'y' = 'Y')
      ∧ str "Dracula" ≠ [] ∧ str "Bram Stoker" ≠ []
      ∧ noByMatch (str "Dracula" ++ [' ']) ∧ noByMatch (str "Bram Stoker")
      ∧ goodreadsTitleSplit (str "Dracula" ++ [' ', 'b', 'y', ' '] ++ str "Bram Stoker")
          = (trim (str "Dracula"), trim (str "Bram Stoker")) :=
  ⟨by decide, by decide, by decide, by decide, by decide, by decide,
    C5_goodreads_title_split (by decide) (by decide) (by decide) (by decide)
      (by decide) (by decide)⟩

/-- C6: the movie-title parser canonicalizes `"Hamnet, 2025"` to
`"Hamnet (2025)"`, is idempotent on the canonical `"Hamnet (2025)"`, and
strips the rating suffix of `"Hamnet - ★★★★"` to `"Hamnet"` with no
parenthetical added. -/
theorem C6_parse_movie_title :
    parseLetterboxdTitle (str "Hamnet, 2025") = str "Hamnet (2025)"
      ∧ parseLetterboxdTitle (str "Hamnet (2025)") = str "Hamnet (2025)"
      ∧ parseLetterboxdTitle (str "Hamnet - ★★★★") = str "Hamnet" := by
  decide

/-- C7: for every now-playing record, a truthy now-playing attribute (the
boolean `true` or the non-empty string `"true"`) yields the label
`"Now Listening To"`, and a falsy or absent attribute yields
`"Last Listened To"`; the produced record's text begins with that label. -/
theorem C7_nowplaying_label :
    (∀ np : Option JVal,
        (truthy np = true → lastfmLabel np = str "Now Listening To")
          ∧ (truthy np = false → lastfmLabel np = str "Last Listened To"))
      ∧ truthy (some (JVal.jbool true)) = true
      ∧ truthy (some (JVal.jstr (str "true"))) = true
      ∧ truthy none = false
      ∧ ∀ it : LastfmTrack,
          List.IsPrefix (lastfmLabel it.nowplaying) (getLastfmLine (some it)).text := by
  refine ⟨?_, by decide, by decide, rfl, ?_⟩
  · intro np
    constructor
    · intro h
      simp [lastfmLabel, h]
    · intro h
      simp [lastfmLabel, h]
  · intro it
    exact List.IsPrefix.trans (List.prefix_append _ _) (List.prefix_append _ _)

/-- Witness for C7 at a record whose now-playing attribute is the string
`"true"`. -/
theorem C7_witness :
    truthy (some (JVal.jstr (str "true"))) = true
      ∧ lastfmLabel (some (JVal.jstr (str "true"))) = str "Now Listening To" :=
  ⟨by decide, (C7_nowplaying_label.1 (some (JVal.jstr (str "true")))).1 (by decide)⟩

/-- C8: for each domain, a missing source item produces the placeholder
record: text `label: —` (so the value part after the colon is the literal
`"—"`) with no link — and, the embedding being total, no exception. -/
theorem C8_missing_item_placeholder :
    getLastfmLine none = ⟨str "Last Listened To: —", none⟩
      ∧ getGoodreadsLine none = ⟨str "Last Read: —", none⟩
      ∧ getLetterboxdLine none = ⟨str "Last Watched: —", none⟩
      ∧ (splitLabelValue (getLastfmLine none).text).2 = emDash
      ∧ (splitLabelValue (getGoodreadsLine none).text).2 = emDash
      ∧ (splitLabelValue (getLetterboxdLine none).text).2 = emDash := by
  decide

/-- C9: for every list of records, the SVG block height equals top padding
plus bottom padding plus the total number of emitted value lines times the
line height — the `Math.max(1, …)` in the source is redundant because every
wrap output has at least one line, and no other constant is added. -/
theorem C9_block_height (lines : List LineOut) :
    svgHeightOf lines
      = stylePaddingTop + stylePaddingBottom
          + (lines.map (fun l => (wrappedOf l).length)).sum * styleLineGap := by
  unfold svgHeightOf
  rw [totalLines_eq]

/-- C10 counterexample: in `22 × "a" ++ " — — b"` the separator `" — "`
occurs twice (at indices 22 and 24, overlapping); the substring after the
final occurrence is `"b"`, yet the code's sequential split protects
`"— b"`, producing line 2 `"— — b"` rather than `"— " ++ "b"`, refuting the
absolute-last-occurrence claim as stated. -/
theorem C10_counterexample :
    sepAt ((str "aaaaaaaaaaaaaaaaaaaaaa — — b").drop 22) = true
      ∧ sepAt ((str "aaaaaaaaaaaaaaaaaaaaaa — — b").drop 24) = true
      ∧ (str "aaaaaaaaaaaaaaaaaaaaaa — — b").drop 27 = str "b"
      ∧ smartWrapValue [] (str "aaaaaaaaaaaaaaaaaaaaaa — — b") 0 0 2
          = [str "aaaaaaaaaaaaaaaaaaaaaa", str "— — b"]
      ∧ str "— — b" ≠ ['—', ' '] ++ str "b" := by
  decide

/-- C10 (amended): for an oversized value with two (non-overlapping, cleanly
spaced) separator occurrences `a ++ " — " ++ b ++ " — " ++ c`, only the chunk
`c` after the last occurrence is protected (possibly ellipsized) on line 2;
everything before it — including the earlier separator — is the wrappable
primary part: line 1 is `a ++ " — " ++ b` itself when it fits the first-line
budget, else its word-wrapped first line. -/
theorem C10_last_chunk_protected {label a b c : Str} {px gap : Int}
    (ha : trim a = a) (hane : a ≠ []) (hb : trim b = b) (hbne : b ≠ [])
    (hc : trim c = c) (hcne : c ≠ [])
    (hda : '—' ∉ a) (hdb : '—' ∉ b) (hdc : '—' ∉ c)
    (hlong : maxCharsLine1 label px gap < (a ++ sep ++ (b ++ sep ++ c)).length) :
    smartWrapValue label (a ++ sep ++ (b ++ sep ++ c)) px gap 2
      = [if (a ++ sep ++ b).length ≤ maxCharsLine1 label px gap
            then a ++ sep ++ b
            else (wrapByWords (a ++ sep ++ b) (maxCharsLine1 label px gap)).headD [],
         ellipsizeToFit (['—', ' '] ++ c) (maxCharsLine2 px)] :=
  smartWrap_lastSep ha hane hb hbne hc hcne hda hdb hdc hlong

/-- Witness for C10 at `a = "aaa"`, `b = "bbb"`, `c = 22 × "c"`. -/
theorem C10_witness :
    trim (str "aaa") = str "aaa" ∧ str "aaa" ≠ []
      ∧ trim (str "bbb") = str "bbb" ∧ str "bbb" ≠ []
      ∧ trim (str "cccccccccccccccccccccc") = str "cccccccccccccccccccccc"
      ∧ str "cccccccccccccccccccccc" ≠ []
      ∧ '—' ∉ str "aaa" ∧ '—' ∉ str "bbb" ∧ '—' ∉ str "cccccccccccccccccccccc"
      ∧ maxCharsLine1 [] 0 0
          < (str "aaa" ++ sep ++ (str "bbb" ++ sep ++ str "cccccccccccccccccccccc")).length
      ∧ smartWrapValue []
            (str "aaa" ++ sep ++ (str "bbb" ++ sep ++ str "cccccccccccccccccccccc")) 0 0 2
          = [if (str "aaa" ++ sep ++ str "bbb").length ≤ maxCharsLine1 [] 0 0
                then str "aaa" ++ sep ++ str "bbb"
                else (wrapByWords (str "aaa" ++ sep ++ str "bbb")
                    (maxCharsLine1 [] 0 0)).headD [],
             ellipsizeToFit (['—', ' '] ++ str "cccccccccccccccccccccc") (maxCharsLine2 0)] :=
  ⟨by decide, by decide, by decide, by decide, by decide, by decide, by decide, by decide,
    by decide, by decide,
    C10_last_chunk_protected (by decide) (by decide) (by decide) (by decide) (by decide)
      (by decide) (by decide) (by decide) (by decide) (by decide)⟩
